import Mathlib

/-!
# Verification of the ctapipe notebook core: Container model, Provenance log, flatten_dict

The repository's source files are tutorial notebooks exercising
`ctapipe.core.Container` / `Field` / `Map` and the `ctapipe.core.Provenance`
singleton, plus a `flatten_dict` helper defined inline in the provenance
notebook.  The library implementations of `Container` and `Provenance` are not
part of the repository snapshot (the notebooks only import and call them), so
those components are modelled from the specification; `flatten_dict` is
embedded directly from its source in the provenance notebook.

Python strings are modelled as `List Char` (a Python `str` is a sequence of
code points; slicing such as `name[:-1]` is `List.dropLast`).
-/

set_option autoImplicit false
set_option synthInstance.maxHeartbeats 400000

namespace CtapipeSpec

/-! ## Provenance log (activity tracker)

Modelled from the spec: the implementation `ctapipe.core.Provenance` is not in
the repository snapshot; the notebook only drives it through `clear`,
`start_activity`, `add_input_file`, `add_output_file`, `finish_activity`,
`finished_activity_names`, `provenance` and `as_json`.  Timestamps are modelled
by a monotone logical clock carried in the tracker state: each operation that
records a time reads the clock and advances it, which captures "captures
start timestamp" / "records end timestamp" with real time abstracted to a
monotonically increasing counter.
-/

/-- Modelled from the spec: the error kinds of the Provenance component
("no active activity" and "activity stack mismatch"). -/
inductive ProvError where
  | noActiveActivity
  | activityStackMismatch
  deriving DecidableEq, Repr

/-- Modelled from the spec: a running activity record — name, start timestamp,
and the accumulated input/output entity references. -/
structure Activity where
  name : List Char
  startTime : Nat
  input : List (List Char)
  output : List (List Char)
  deriving DecidableEq, Repr

/-- Modelled from the spec: a completed activity snapshot appended to the
durable provenance list when the activity is finished. -/
structure FinishedActivity where
  name : List Char
  startTime : Nat
  stopTime : Nat
  input : List (List Char)
  output : List (List Char)
  deriving DecidableEq, Repr

/-- Duration of a finished activity (end minus start, as an integer). -/
def FinishedActivity.duration (f : FinishedActivity) : Int :=
  (f.stopTime : Int) - (f.startTime : Int)

/-- Modelled from the spec: the state of the Provenance singleton — the stack
of running activities (head = top of stack), the append-only list of finished
activity snapshots, and the logical clock used for timestamps. -/
structure ProvState where
  stack : List Activity
  finished : List FinishedActivity
  clock : Nat
  deriving DecidableEq, Repr

/-- Modelled from the spec: `clear()` resets all accumulated state (both the
active stack and the finished list) to empty. -/
def clearProv (s : ProvState) : ProvState :=
  { stack := [], finished := [], clock := s.clock }

/-- Modelled from the spec: the default activity name used when
`start_activity()` is called with no name argument. -/
def defaultActivityName : List Char := "default activity".data

/-- Modelled from the spec: `start_activity(name)` pushes a new activity record
onto the stack, capturing the start timestamp.  A missing name defaults to
`defaultActivityName`.  Always succeeds. -/
def startActivity (name : Option (List Char)) (s : ProvState) :
    Except ProvError Unit × ProvState :=
  (Except.ok (),
   { s with
      stack := { name := name.getD defaultActivityName, startTime := s.clock,
                 input := [], output := [] } :: s.stack,
      clock := s.clock + 1 })

/-- Modelled from the spec: `add_input_file(ref)` attaches an input entity
reference to the top-of-stack activity; with no active activity it signals the
"no active activity" error and leaves the state untouched. -/
def addInputFile (ref : List Char) (s : ProvState) :
    Except ProvError Unit × ProvState :=
  match s.stack with
  | [] => (Except.error ProvError.noActiveActivity, s)
  | a :: rest =>
      (Except.ok (), { s with stack := { a with input := a.input ++ [ref] } :: rest })

/-- Modelled from the spec: `add_output_file(ref)` attaches an output entity
reference to the top-of-stack activity; with no active activity it signals the
"no active activity" error and leaves the state untouched. -/
def addOutputFile (ref : List Char) (s : ProvState) :
    Except ProvError Unit × ProvState :=
  match s.stack with
  | [] => (Except.error ProvError.noActiveActivity, s)
  | a :: rest =>
      (Except.ok (), { s with stack := { a with output := a.output ++ [ref] } :: rest })

/-- Modelled from the spec: `finish_activity(name=None)` checks the name (when
given) against the top of the stack, and only on a match pops the stack,
records the end timestamp and appends the completed snapshot to the finished
list.  A mismatch — or an empty stack, the other way of finishing out of
order — signals the "activity stack mismatch" error without mutating state
(operations fail atomically).  With `name=None` the top activity is finished
unconditionally. -/
def finishActivity (name : Option (List Char)) (s : ProvState) :
    Except ProvError Unit × ProvState :=
  match s.stack with
  | [] => (Except.error ProvError.activityStackMismatch, s)
  | a :: rest =>
      match name with
      | none =>
          (Except.ok (),
           { stack := rest,
             finished := s.finished ++
               [{ name := a.name, startTime := a.startTime, stopTime := s.clock,
                  input := a.input, output := a.output }],
             clock := s.clock + 1 })
      | some n =>
          if n = a.name then
            (Except.ok (),
             { stack := rest,
               finished := s.finished ++
                 [{ name := a.name, startTime := a.startTime, stopTime := s.clock,
                    input := a.input, output := a.output }],
               clock := s.clock + 1 })
          else (Except.error ProvError.activityStackMismatch, s)

/-- Modelled from the spec: the "finished activity names" view. -/
def finishedActivityNames (s : ProvState) : List (List Char) :=
  s.finished.map (fun f => f.name)

/-! ## Record model (Container / Field / Map), pure value view

Modelled from the spec: `ctapipe.core.Container` is not in the repository
snapshot; the notebooks declare example container types (`SubContainer`,
`TelContainer`, `EventContainer`, `DangerousContainer`) and drive instances
through attribute assignment, `as_dict(recursive, flatten, add_prefix)` and
`reset()`.  A field value is a scalar, an array, a nested sub-container, or an
auto-vivifying `Map` from an integer key (e.g. a telescope id) to a
sub-container. -/

/-- Modelled from the spec: the value held by one container field — a scalar,
an array, a nested sub-container (its own list of named fields), or a `Map`
from integer keys to sub-container field lists. -/
inductive CVal where
  | int (n : Int)
  | arr (xs : List Int)
  | sub (fields : List (List Char × CVal))
  | map (entries : List (Nat × List (List Char × CVal)))

/-- Modelled from the spec: a record instance — a bound prefix string plus an
ordered mapping from field name to current value. -/
structure Container where
  pfx : List Char
  fields : List (List Char × CVal)

/-- A Python-style value tree: the output domain of `as_dict` and the input
domain of the notebook's `flatten_dict`.  `cont` is a container object passed
through opaquely (not descended into) by a non-recursive export; like any
non-dict non-list Python object it counts as a leaf for `flatten_dict`. -/
inductive PyVal where
  | int (n : Int)
  | arr (xs : List Int)
  | str (s : List Char)
  | dict (entries : List (List Char × PyVal))
  | list (items : List PyVal)
  | cont (fields : List (List Char × CVal))

/-- A `PyVal` that is neither a dict nor a list: the values `flatten_dict`
treats as leaves. -/
def PyVal.isLeaf : PyVal → Bool
  | .dict _ => false
  | .list _ => false
  | _ => true

/-- Whether a field value is an auto-vivifying `Map`. -/
def CVal.isMap : CVal → Bool
  | .map _ => true
  | _ => false

/-- Modelled from the spec: the entries of a non-recursive export — only
scalar/array fields, sub-containers passed through as opaque values, and
auto-vivifying maps skipped entirely. -/
def nonRecEntries : List (List Char × CVal) → List (List Char × PyVal)
  | [] => []
  | (k, CVal.int n) :: rest => (k, PyVal.int n) :: nonRecEntries rest
  | (k, CVal.arr xs) :: rest => (k, PyVal.arr xs) :: nonRecEntries rest
  | (k, CVal.sub fs) :: rest => (k, PyVal.cont fs) :: nonRecEntries rest
  | (k, CVal.map _) :: rest => nonRecEntries rest

mutual

/-- Modelled from the spec: the entries of a recursive, non-flat export — a
nested mapping mirroring the structure, sub-records expanded into dicts and
maps traversed key-by-key. -/
def recEntries (fields : List (List Char × CVal)) : List (List Char × PyVal) :=
  match fields with
  | [] => []
  | e :: rest => (e.1, recVal e.2) :: recEntries rest

/-- Recursive, non-flat export of one field value. -/
def recVal : CVal → PyVal
  | .int n => PyVal.int n
  | .arr xs => PyVal.arr xs
  | .sub fs => PyVal.dict (recEntries fs)
  | .map es => PyVal.dict (mapEntries es)

/-- Recursive, non-flat export of a `Map` field: one entry per key. -/
def mapEntries (es : List (Nat × List (List Char × CVal))) : List (List Char × PyVal) :=
  match es with
  | [] => []
  | e :: rest => ((Nat.repr e.1).data, PyVal.dict (recEntries e.2)) :: mapEntries rest

end

mutual

/-- Modelled from the spec: the entries of a recursive, flat export — all leaf
fields of the whole sub-tree merged into one mapping, nested names joined with
the separator character. -/
def flatEntries (fields : List (List Char × CVal)) : List (List Char × PyVal) :=
  match fields with
  | [] => []
  | e :: rest => flatField e.1 e.2 ++ flatEntries rest

/-- Flat export of one field: leaves keep the field name, sub-container leaves
get the field name joined in front, map leaves additionally get the key. -/
def flatField (k : List Char) : CVal → List (List Char × PyVal)
  | .int n => [(k, PyVal.int n)]
  | .arr xs => [(k, PyVal.arr xs)]
  | .sub fs => (flatEntries fs).map fun e => (k ++ '_' :: e.1, e.2)
  | .map es => flatMapEntries k es

/-- Flat export of a map field: every entry's sub-tree, keyed by field name,
map key and inner name. -/
def flatMapEntries (k : List Char) : List (Nat × List (List Char × CVal)) →
    List (List Char × PyVal)
  | [] => []
  | e :: rest =>
      ((flatEntries e.2).map fun p => (k ++ '_' :: (Nat.repr e.1).data ++ '_' :: p.1, p.2)) ++
        flatMapEntries k rest

end

/-- Modelled from the spec: when `add_prefix` is set, the record's own prefix
is prepended (with the separator) to every key of its export. -/
def addPfx (ap : Bool) (p : List Char) (l : List (List Char × PyVal)) :
    List (List Char × PyVal) :=
  if ap then l.map (fun e => (p ++ '_' :: e.1, e.2)) else l

/-- Modelled from the spec: `as_dict(recursive, flatten, add_prefix)`. -/
def asDict (c : Container) (recursive flatten ap : Bool) : PyVal :=
  PyVal.dict (addPfx ap c.pfx
    (if recursive then (if flatten then flatEntries c.fields else recEntries c.fields)
     else nonRecEntries c.fields))

/-- The key list of a dict-shaped export (empty for non-dict values). -/
def exportKeys : PyVal → List (List Char)
  | .dict es => es.map (fun e => e.1)
  | _ => []

/-- Modelled from the spec: one finished activity snapshot as a document
node — name, timestamps, duration, input and output entity lists. -/
def activityDoc (f : FinishedActivity) : PyVal :=
  PyVal.dict
    [("activity_name".data, PyVal.str f.name),
     ("start".data, PyVal.int f.startTime),
     ("stop".data, PyVal.int f.stopTime),
     ("duration".data, PyVal.int f.duration),
     ("input".data, PyVal.list (f.input.map PyVal.str)),
     ("output".data, PyVal.list (f.output.map PyVal.str))]

/-- Modelled from the spec: `export()` / `as_json()` serializes the full list
of finished activity snapshots into a structured document. -/
def provenanceDoc (s : ProvState) : PyVal :=
  PyVal.list (s.finished.map activityDoc)

/-! ## `flatten_dict`, embedded from the source

The provenance notebook defines, verbatim:

```python
def flatten_dict(y):
    out = {}

    def flatten(x, name=""):
        if type(x) is dict:
            for a in x:
                flatten(x[a], name + a + ".")
        elif type(x) is list:
            i = 0
            for a in x:
                flatten(a, name + str(i) + ".")
                i += 1
        else:
            out[name[:-1]] = x

    flatten(y)
    return out
```

`out` is a Python dict with insertion-order semantics: assigning to a present
key overwrites it in place, assigning to a fresh key appends.  `name[:-1]`
drops the final character (`List.dropLast`); `str(i)` is `Nat.repr`. -/

/-- Python dict assignment `out[k] = v`: overwrite in place when the key is
present, append otherwise. -/
def pyAssign (out : List (List Char × PyVal)) (k : List Char) (v : PyVal) :
    List (List Char × PyVal) :=
  if out.any (fun e => e.1 == k) then
    out.map (fun e => if e.1 == k then (k, v) else e)
  else out ++ [(k, v)]

mutual

/-- Embedded from the source: the inner `flatten(x, name)` closure of
`flatten_dict`; `out` is the accumulated dict threaded through the calls. -/
def pyFlatten (out : List (List Char × PyVal)) (x : PyVal) (name : List Char) :
    List (List Char × PyVal) :=
  match x with
  | .dict es => pyFlattenDict out es name
  | .list xs => pyFlattenList out xs name 0
  | x => pyAssign out name.dropLast x

/-- The `for a in x: flatten(x[a], name + a + ".")` loop. -/
def pyFlattenDict (out : List (List Char × PyVal))
    (es : List (List Char × PyVal)) (name : List Char) : List (List Char × PyVal) :=
  match es with
  | [] => out
  | e :: rest => pyFlattenDict (pyFlatten out e.2 (name ++ e.1 ++ ['.'])) rest name

/-- The `for a in x: flatten(a, name + str(i) + "."); i += 1` loop. -/
def pyFlattenList (out : List (List Char × PyVal)) (xs : List PyVal)
    (name : List Char) (i : Nat) : List (List Char × PyVal) :=
  match xs with
  | [] => out
  | v :: rest =>
      pyFlattenList (pyFlatten out v (name ++ (Nat.repr i).data ++ ['.'])) rest name (i + 1)

end

/-- Embedded from the source: `flatten_dict(y)` runs `flatten(y, "")` on an
empty accumulator and returns it. -/
def flatten_dict (y : PyVal) : List (List Char × PyVal) :=
  pyFlatten [] y []

/-! Specification-side view of the same traversal: the ordered list of
(final key, leaf) pairs the code assigns, without the dict-overwrite step. -/

mutual

/-- The ordered (key, leaf) assignments `flatten(x, name)` performs. -/
def pyLeaves (x : PyVal) (name : List Char) : List (List Char × PyVal) :=
  match x with
  | .dict es => pyLeavesDict es name
  | .list xs => pyLeavesList xs name 0
  | x => [(name.dropLast, x)]

/-- `pyLeaves` over the entries of a dict. -/
def pyLeavesDict (es : List (List Char × PyVal)) (name : List Char) :
    List (List Char × PyVal) :=
  match es with
  | [] => []
  | e :: rest => pyLeaves e.2 (name ++ e.1 ++ ['.']) ++ pyLeavesDict rest name

/-- `pyLeaves` over the items of a list, counting from `i`. -/
def pyLeavesList (xs : List PyVal) (name : List Char) (i : Nat) :
    List (List Char × PyVal) :=
  match xs with
  | [] => []
  | v :: rest => pyLeaves v (name ++ (Nat.repr i).data ++ ['.']) ++ pyLeavesList rest name (i + 1)

end

/-- One step of a path into a nested Python value: a dict key or a list index. -/
inductive PathElem where
  | key (s : List Char)
  | idx (i : Nat)

/-- The string a path element contributes to a flattened key. -/
def elemStr : PathElem → List Char
  | .key s => s
  | .idx i => (Nat.repr i).data

/-- Joining a list of names with the "." separator. -/
def joinDot : List (List Char) → List Char
  | [] => []
  | [s] => s
  | s :: t :: rest => s ++ '.' :: joinDot (t :: rest)

/-- `LeafAt y p v`: following path `p` from `y` (dict keys by membership, list
items by position) reaches the non-dict, non-list leaf `v`. -/
inductive LeafAt : PyVal → List PathElem → PyVal → Prop where
  | here {v : PyVal} : v.isLeaf = true → LeafAt v [] v
  | inDict {es : List (List Char × PyVal)} {p : List PathElem} {k : List Char}
      {x v : PyVal} : (k, x) ∈ es → LeafAt x p v → LeafAt (PyVal.dict es) (PathElem.key k :: p) v
  | inList {xs : List PyVal} {p : List PathElem} {i : Nat} {x v : PyVal} :
      xs[i]? = some x → LeafAt x p v → LeafAt (PyVal.list xs) (PathElem.idx i :: p) v

/-! ## Record model, heap view (identity and sharing of mutable defaults)

Modelled from the spec: the field-declaration layer of `ctapipe.core.Field` —
a default is either an immutable scalar, a plain mutable value (a single
object created at class-definition time and shared by every instance: the
documented `DangerousContainer` hazard), or a `default_factory` producing a
fresh object per invocation.  Object identity is modelled with an explicit
heap of array cells: a field value is a scalar or a reference into the heap,
and two fields alias exactly when they hold the same address. -/

/-- The mutable store: cell `a` holds the array `h.getD a []`. -/
abbrev Heap := List (List Int)

/-- Allocate a fresh cell holding `xs`; returns its address and the new heap. -/
def hAlloc (h : Heap) (xs : List Int) : Nat × Heap :=
  (h.length, h ++ [xs])

/-- Overwrite the cell at address `a`. -/
def hWrite (h : Heap) (a : Nat) (xs : List Int) : Heap :=
  h.set a xs

/-- Read the cell at address `a`. -/
def hRead (h : Heap) (a : Nat) : List Int :=
  h.getD a []

/-- Modelled from the spec: a field declaration — an immutable scalar default,
a plain mutable default (the pre-allocated schema-level cell `addr`, declared
to hold `xs`), or a `default_factory` producing a fresh array `mk`. -/
inductive HFieldSpec where
  | defInt (n : Int)
  | defArr (addr : Nat) (xs : List Int)
  | factoryArr (mk : List Int)
  deriving DecidableEq, Repr

/-- A record type: its ordered field declarations. -/
abbrev HSchema := List (List Char × HFieldSpec)

/-- A field value at run time: a scalar or a reference to a heap cell. -/
inductive HVal where
  | int (n : Int)
  | ref (addr : Nat)
  deriving DecidableEq, Repr

/-- Modelled from the spec: initializing one field at construction time — the
scalar default by value, a plain mutable default by reference to the one
schema-level cell (the shared-state hazard), a factory by a fresh cell. -/
def mkVal : HFieldSpec → Heap → HVal × Heap
  | .defInt n, h => (HVal.int n, h)
  | .defArr a _, h => (HVal.ref a, h)
  | .factoryArr mk, h => ((HVal.ref (hAlloc h mk).1), (hAlloc h mk).2)

/-- Modelled from the spec: constructing an instance initializes every field
from its default or factory, in declaration order. -/
def mkFields : HSchema → Heap → List (List Char × HVal) × Heap
  | [], h => ([], h)
  | e :: s, h =>
      ((e.1, (mkVal e.2 h).1) :: (mkFields s (mkVal e.2 h).2).1,
       (mkFields s (mkVal e.2 h).2).2)

/-- Modelled from the spec: `reset()` reinitializes one field to a freshly
produced default — factories are re-invoked and mutable defaults are restored
to their declared contents, with no sharing with the pre-reset values. -/
def resetVal : HFieldSpec → Heap → HVal × Heap
  | .defInt n, h => (HVal.int n, h)
  | .defArr _ xs, h => ((HVal.ref (hAlloc h xs).1), (hAlloc h xs).2)
  | .factoryArr mk, h => ((HVal.ref (hAlloc h mk).1), (hAlloc h mk).2)

/-- Modelled from the spec: `reset()` over all fields, in declaration order. -/
def resetFields : HSchema → Heap → List (List Char × HVal) × Heap
  | [], h => ([], h)
  | e :: s, h =>
      ((e.1, (resetVal e.2 h).1) :: (resetFields s (resetVal e.2 h).2).1,
       (resetFields s (resetVal e.2 h).2).2)

/-- Export of a heap-backed instance: scalars by value, references by the
current contents of their cell (`export(recursive=True)` at this one level). -/
def exportH (fs : List (List Char × HVal)) (h : Heap) : List (List Char × PyVal) :=
  fs.map fun e =>
    match e.2 with
    | .int n => (e.1, PyVal.int n)
    | .ref a => (e.1, PyVal.arr (hRead h a))

/-- The addresses an instance's fields refer to. -/
def refsOf (fs : List (List Char × HVal)) : List Nat :=
  fs.filterMap fun e =>
    match e.2 with
    | .int _ => none
    | .ref a => some a

/-- Well-formedness of one field declaration against the initial heap: a plain
mutable default's schema cell exists and holds its declared contents. -/
def specWFb (h : Heap) : HFieldSpec → Bool
  | .defArr a xs => decide (a < h.length) && (hRead h a == xs)
  | _ => true

/-- Well-formedness of a schema against the initial heap. -/
def schemaWF (s : HSchema) (h : Heap) : Bool :=
  s.all fun e => specWFb h e.2


/-- A concrete example schema for witnesses: a factory-backed array field, an
immutable scalar field, and a plain-mutable-default field sharing cell 0. -/
def wSchema : HSchema :=
  [("image".data, HFieldSpec.factoryArr [0, 0]),
   ("tel_id".data, HFieldSpec.defInt (-1)),
   ("danger".data, HFieldSpec.defArr 0 [7])]

/-- The initial heap for `wSchema`: the shared schema-level cell. -/
def wHeap : Heap := [[7]]


/-- Counterexample field list for the prefix-collision example: two integer
fields whose names overlap once joined with the separator. -/
def cexFields : List (List Char × CVal) :=
  [("x".data, CVal.int 0), ("y_x".data, CVal.int 0)]

/-- A container of the counterexample type with prefix `"a_y"`. -/
def cexA : Container := { pfx := "a_y".data, fields := cexFields }

/-- A container of the same type with prefix `"a"`. -/
def cexB : Container := { pfx := "a".data, fields := cexFields }

/-- A concrete event-like container (scalar field, sub-container field, map
field) used to witness the export-mode properties. -/
def evW : Container :=
  { pfx := "ev".data,
    fields :=
      [("event_id".data, CVal.int (-1)),
       ("sub".data, CVal.sub [("junk".data, CVal.int (-1))]),
       ("tel".data, CVal.map [(1, [("tel_id".data, CVal.int (-1))])])] }


/-- The dict `out` after the ordered assignments in `l` (`out[k] = v` for each
pair in turn). -/
def pyAssignAll (out : List (List Char × PyVal)) (l : List (List Char × PyVal)) :
    List (List Char × PyVal) :=
  l.foldl (fun o e => pyAssign o e.1 e.2) out

/-- The raw key text a path contributes inside `flatten`: each element's
string followed by the "." the code appends. -/
def pathStr (p : List PathElem) : List Char :=
  (p.map (fun e => elemStr e ++ ['.'])).flatten

/-- Counterexample input for key clashes in `flatten_dict`: the nested leaf at
path a.b and the top-level key "a.b" flatten to the same key. -/
def cexY : PyVal :=
  PyVal.dict [("a".data, PyVal.dict [("b".data, PyVal.int 1)]),
              ("a.b".data, PyVal.int 2)]

/-- A collision-free concrete input for the `flatten_dict` witness. -/
def yW : PyVal :=
  PyVal.dict [("a".data, PyVal.int 1),
              ("b".data, PyVal.list [PyVal.int 2, PyVal.int 3])]

/-! ## Theorems: Provenance log -/

/-- C1: the Provenance log enforces LIFO activity nesting.  From a cleared
tracker, `start("a"); start("b"); finish("b"); finish("a")` has every call
succeed and yields exactly two finished activities, "b"'s end timestamp
strictly before "a"'s and each duration non-negative; whereas
`start("a"); start("b"); finish("a")` signals the "activity stack mismatch"
error and neither activity becomes finished. -/
theorem activity_stack_discipline (s0 : ProvState) :
    (let s := clearProv s0
     let t1 := startActivity (some "a".data) s
     let t2 := startActivity (some "b".data) t1.2
     let t3 := finishActivity (some "b".data) t2.2
     let t4 := finishActivity (some "a".data) t3.2
     t1.1 = Except.ok () ∧ t2.1 = Except.ok () ∧ t3.1 = Except.ok () ∧ t4.1 = Except.ok () ∧
     t4.2.finished.length = 2 ∧
     finishedActivityNames t4.2 = ["b".data, "a".data] ∧
     (∃ fb fa, t4.2.finished = [fb, fa] ∧ fb.name = "b".data ∧ fa.name = "a".data ∧
        fb.stopTime < fa.stopTime ∧ 0 ≤ fb.duration ∧ 0 ≤ fa.duration)) ∧
    (let s := clearProv s0
     let t1 := startActivity (some "a".data) s
     let t2 := startActivity (some "b".data) t1.2
     let t3 := finishActivity (some "a".data) t2.2
     t3.1 = Except.error ProvError.activityStackMismatch ∧
     t3.2.finished = [] ∧ finishedActivityNames t3.2 = []) := by
  refine ⟨?_, ?_⟩ <;>
    simp +decide [clearProv, startActivity, finishActivity, finishedActivityNames,
      FinishedActivity.duration]
  exact ⟨_, _, ⟨rfl, rfl⟩, rfl, rfl, by simp <;> omega, by simp <;> omega, by simp <;> omega⟩

/-- C2: every Provenance log operation is atomic on failure — an operation
that does not succeed leaves the tracker state exactly as it was; in
particular a failed `finish_activity` does not pop the stack.
(`start_activity` never fails.) -/
theorem provenance_atomic_on_failure (s : ProvState) (r : List Char)
    (n : Option (List Char)) :
    ((addInputFile r s).1 ≠ Except.ok () → (addInputFile r s).2 = s) ∧
    ((addOutputFile r s).1 ≠ Except.ok () → (addOutputFile r s).2 = s) ∧
    ((finishActivity n s).1 ≠ Except.ok () → (finishActivity n s).2 = s) ∧
    (startActivity n s).1 = Except.ok () := by
  refine ⟨?_, ?_, ?_, ?_⟩
  · cases h : s.stack <;> simp [addInputFile, h]
  · cases h : s.stack <;> simp [addOutputFile, h]
  · cases h : s.stack with
    | nil => simp [finishActivity, h]
    | cons a rest =>
        cases n with
        | none => simp [finishActivity, h]
        | some m =>
            by_cases hm : m = a.name <;> simp [finishActivity, h, hm]
  · simp [startActivity]

/-- Witness for C2: a concrete failing `add_input_file` call (empty stack)
leaves a concrete state unchanged. -/
theorem provenance_atomic_on_failure_w :
    ((addInputFile "x".data { stack := [], finished := [], clock := 0 }).1 ≠ Except.ok ()) ∧
    (addInputFile "x".data { stack := [], finished := [], clock := 0 }).2 =
      { stack := [], finished := [], clock := 0 } := by
  refine ⟨by simp [addInputFile],
    (provenance_atomic_on_failure { stack := [], finished := [], clock := 0 }
      "x".data none).1 (by simp [addInputFile])⟩

/-- C3: `add_input_entity` / `add_output_entity` with an empty activity stack
signal the "no active activity" error, and the finished list is unchanged by
the failed call. -/
theorem add_entity_no_active_activity (s : ProvState) (r : List Char)
    (h : s.stack = []) :
    (addInputFile r s).1 = Except.error ProvError.noActiveActivity ∧
    (addInputFile r s).2.finished = s.finished ∧
    (addOutputFile r s).1 = Except.error ProvError.noActiveActivity ∧
    (addOutputFile r s).2.finished = s.finished := by
  simp [addInputFile, addOutputFile, h]

/-- Witness for C3: the concrete call of the notebook
(`add_input_file("test.txt")` before any `start_activity`). -/
theorem add_entity_no_active_activity_w :
    (addInputFile "test.txt".data { stack := [], finished := [], clock := 5 }).1 =
      Except.error ProvError.noActiveActivity ∧
    (addInputFile "test.txt".data { stack := [], finished := [], clock := 5 }).2.finished =
      ({ stack := [], finished := [], clock := 5 } : ProvState).finished ∧
    (addOutputFile "test.txt".data { stack := [], finished := [], clock := 5 }).1 =
      Except.error ProvError.noActiveActivity ∧
    (addOutputFile "test.txt".data { stack := [], finished := [], clock := 5 }).2.finished =
      ({ stack := [], finished := [], clock := 5 } : ProvState).finished :=
  add_entity_no_active_activity { stack := [], finished := [], clock := 5 }
    "test.txt".data rfl

/-- C4: after `clear()` the active stack and the finished list are both empty
and the exported document is empty, regardless of prior activity. -/
theorem clear_yields_empty_document (s : ProvState) :
    (clearProv s).stack = [] ∧ (clearProv s).finished = [] ∧
    provenanceDoc (clearProv s) = PyVal.list [] ∧
    finishedActivityNames (clearProv s) = [] := by
  simp [clearProv, provenanceDoc, finishedActivityNames]

/-- C10: `start_activity` may be called with no name, creating an activity
with the default name, and `finish_activity` with no name unconditionally
finishes the top-of-stack activity without the name-match check, so an
argument-less start/finish pair always succeeds. -/
theorem unnamed_start_finish_pair (s : ProvState) :
    (startActivity none s).1 = Except.ok () ∧
    ((startActivity none s).2.stack.head?.map Activity.name = some defaultActivityName) ∧
    (finishActivity none (startActivity none s).2).1 = Except.ok () ∧
    (∀ a rest, s.stack = a :: rest → (finishActivity none s).1 = Except.ok ()) := by
  refine ⟨rfl, by simp [startActivity], by simp [startActivity, finishActivity], ?_⟩
  intro a rest h
  simp [finishActivity, h]

/-- Witness for C10: finishing with no name succeeds on a concrete nonempty
stack whose top has an arbitrary name. -/
theorem unnamed_start_finish_pair_w :
    (finishActivity none
      { stack := [{ name := "a".data, startTime := 0, input := [], output := [] }],
        finished := [], clock := 1 }).1 = Except.ok () :=
  (unnamed_start_finish_pair
      { stack := [{ name := "a".data, startTime := 0, input := [], output := [] }],
        finished := [], clock := 1 }).2.2.2
    { name := "a".data, startTime := 0, input := [], output := [] } [] rfl

/-! ## Theorems: Record model, heap view (C5, C7) -/


theorem mkVal_heap_ext (spec : HFieldSpec) (h : Heap) :
    ∃ t, (mkVal spec h).2 = h ++ t := by
  cases spec with
  | defInt n => exact ⟨[], by simp [mkVal]⟩
  | defArr a xs => exact ⟨[], by simp [mkVal]⟩
  | factoryArr mk => exact ⟨[mk], by simp [mkVal, hAlloc]⟩

theorem mkFields_heap_ext (s : HSchema) (h : Heap) :
    ∃ t, (mkFields s h).2 = h ++ t := by
  induction s generalizing h with
  | nil => exact ⟨[], by simp [mkFields]⟩
  | cons e rest ih =>
      obtain ⟨t1, h1⟩ := mkVal_heap_ext e.2 h
      obtain ⟨t2, h2⟩ := ih (mkVal e.2 h).2
      refine ⟨t1 ++ t2, ?_⟩
      rw [show (mkFields (e :: rest) h).2 = (mkFields rest (mkVal e.2 h).2).2 from rfl,
        h2, h1, List.append_assoc]

theorem resetVal_heap_ext (spec : HFieldSpec) (h : Heap) :
    ∃ t, (resetVal spec h).2 = h ++ t := by
  cases spec with
  | defInt n => exact ⟨[], by simp [resetVal]⟩
  | defArr a xs => exact ⟨[xs], by simp [resetVal, hAlloc]⟩
  | factoryArr mk => exact ⟨[mk], by simp [resetVal, hAlloc]⟩

theorem resetFields_heap_ext (s : HSchema) (h : Heap) :
    ∃ t, (resetFields s h).2 = h ++ t := by
  induction s generalizing h with
  | nil => exact ⟨[], by simp [resetFields]⟩
  | cons e rest ih =>
      obtain ⟨t1, h1⟩ := resetVal_heap_ext e.2 h
      obtain ⟨t2, h2⟩ := ih (resetVal e.2 h).2
      refine ⟨t1 ++ t2, ?_⟩
      rw [show (resetFields (e :: rest) h).2 = (resetFields rest (resetVal e.2 h).2).2 from rfl,
        h2, h1, List.append_assoc]

theorem hRead_append (h t : Heap) (a : Nat) (ha : a < h.length) :
    hRead (h ++ t) a = hRead h a := by
  simp [hRead, List.getD_eq_getElem?_getD, List.getElem?_append_left ha]

theorem mkFields_len (s : HSchema) (h : Heap) :
    (mkFields s h).1.length = s.length := by
  induction s generalizing h with
  | nil => simp [mkFields]
  | cons e rest ih => simp [mkFields, ih]

theorem resetFields_len (s : HSchema) (h : Heap) :
    (resetFields s h).1.length = s.length := by
  induction s generalizing h with
  | nil => simp [resetFields]
  | cons e rest ih => simp [resetFields, ih]

theorem heap_len_le_mkVal (spec : HFieldSpec) (h : Heap) :
    h.length ≤ (mkVal spec h).2.length := by
  obtain ⟨t, ht⟩ := mkVal_heap_ext spec h
  simp [ht]

theorem heap_len_le_mkFields (s : HSchema) (h : Heap) :
    h.length ≤ (mkFields s h).2.length := by
  obtain ⟨t, ht⟩ := mkFields_heap_ext s h
  simp [ht]

theorem heap_len_le_resetVal (spec : HFieldSpec) (h : Heap) :
    h.length ≤ (resetVal spec h).2.length := by
  obtain ⟨t, ht⟩ := resetVal_heap_ext spec h
  simp [ht]

theorem heap_len_le_resetFields (s : HSchema) (h : Heap) :
    h.length ≤ (resetFields s h).2.length := by
  obtain ⟨t, ht⟩ := resetFields_heap_ext s h
  simp [ht]

theorem mkFields_get (s : HSchema) (h : Heap) (i : Nat) (k : List Char)
    (spec : HFieldSpec) (hs : s[i]? = some (k, spec)) :
    ∃ v, (mkFields s h).1[i]? = some (k, v) ∧
      (∀ n, spec = HFieldSpec.defInt n → v = HVal.int n) ∧
      (∀ a xs, spec = HFieldSpec.defArr a xs → v = HVal.ref a) ∧
      (∀ mk, spec = HFieldSpec.factoryArr mk →
        ∃ a, v = HVal.ref a ∧ h.length ≤ a ∧ a < (mkFields s h).2.length ∧
          hRead (mkFields s h).2 a = mk) := by
  induction s generalizing h i with
  | nil => simp at hs
  | cons e rest ih =>
      cases i with
      | zero =>
          simp only [List.getElem?_cons_zero, Option.some.injEq] at hs
          subst hs
          refine ⟨(mkVal spec h).1, by simp [mkFields], ?_, ?_, ?_⟩
          · intro n hn; subst hn; simp [mkVal]
          · intro a xs hn; subst hn; simp [mkVal]
          · intro mk hn; subst hn
            refine ⟨h.length, by simp [mkVal, hAlloc], le_refl _, ?_, ?_⟩
            · have h2 := heap_len_le_mkFields rest (h ++ [mk])
              rw [show (mkFields ((k, HFieldSpec.factoryArr mk) :: rest) h).2
                  = (mkFields rest (h ++ [mk])).2 from rfl]
              simp at h2
              omega
            · obtain ⟨t, ht⟩ := mkFields_heap_ext rest (h ++ [mk])
              rw [show (mkFields ((k, HFieldSpec.factoryArr mk) :: rest) h).2
                  = (mkFields rest (h ++ [mk])).2 from rfl, ht,
                hRead_append _ _ _ (by simp)]
              simp [hRead, List.getD_eq_getElem?_getD]
      | succ j =>
          simp only [List.getElem?_cons_succ] at hs
          obtain ⟨v, hv, h1, h2, h3⟩ := ih (mkVal e.2 h).2 j hs
          refine ⟨v, ?_, h1, h2, ?_⟩
          · rw [show (mkFields (e :: rest) h).1
                = (e.1, (mkVal e.2 h).1) :: (mkFields rest (mkVal e.2 h).2).1 from rfl]
            simpa using hv
          intro mk hn
          obtain ⟨a, ha1, ha2, ha3, ha4⟩ := h3 mk hn
          exact ⟨a, ha1, le_trans (heap_len_le_mkVal e.2 h) ha2, ha3, ha4⟩

theorem resetFields_get (s : HSchema) (h : Heap) (i : Nat) (k : List Char)
    (spec : HFieldSpec) (hs : s[i]? = some (k, spec)) :
    ∃ v, (resetFields s h).1[i]? = some (k, v) ∧
      (∀ n, spec = HFieldSpec.defInt n → v = HVal.int n) ∧
      (∀ a xs, spec = HFieldSpec.defArr a xs →
        ∃ a', v = HVal.ref a' ∧ h.length ≤ a' ∧
          hRead (resetFields s h).2 a' = xs) ∧
      (∀ mk, spec = HFieldSpec.factoryArr mk →
        ∃ a, v = HVal.ref a ∧ h.length ≤ a ∧
          hRead (resetFields s h).2 a = mk) := by
  induction s generalizing h i with
  | nil => simp at hs
  | cons e rest ih =>
      cases i with
      | zero =>
          simp only [List.getElem?_cons_zero, Option.some.injEq] at hs
          subst hs
          refine ⟨(resetVal spec h).1, by simp [resetFields], ?_, ?_, ?_⟩
          · intro n hn; subst hn; simp [resetVal]
          · intro a xs hn; subst hn
            refine ⟨h.length, by simp [resetVal, hAlloc], le_refl _, ?_⟩
            obtain ⟨t, ht⟩ := resetFields_heap_ext rest (h ++ [xs])
            rw [show (resetFields ((k, HFieldSpec.defArr a xs) :: rest) h).2
                = (resetFields rest (h ++ [xs])).2 from rfl, ht,
              hRead_append _ _ _ (by simp)]
            simp [hRead, List.getD_eq_getElem?_getD]
          · intro mk hn; subst hn
            refine ⟨h.length, by simp [resetVal, hAlloc], le_refl _, ?_⟩
            obtain ⟨t, ht⟩ := resetFields_heap_ext rest (h ++ [mk])
            rw [show (resetFields ((k, HFieldSpec.factoryArr mk) :: rest) h).2
                = (resetFields rest (h ++ [mk])).2 from rfl, ht,
              hRead_append _ _ _ (by simp)]
            simp [hRead, List.getD_eq_getElem?_getD]
      | succ j =>
          simp only [List.getElem?_cons_succ] at hs
          obtain ⟨v, hv, h1, h2, h3⟩ := ih (resetVal e.2 h).2 j hs
          refine ⟨v, ?_, h1, ?_, ?_⟩
          · rw [show (resetFields (e :: rest) h).1
                = (e.1, (resetVal e.2 h).1) :: (resetFields rest (resetVal e.2 h).2).1 from rfl]
            simpa using hv
          · intro a xs hn
            obtain ⟨a', ha1, ha2, ha3⟩ := h2 a xs hn
            exact ⟨a', ha1, le_trans (heap_len_le_resetVal e.2 h) ha2, ha3⟩
          · intro mk hn
            obtain ⟨a, ha1, ha2, ha3⟩ := h3 mk hn
            exact ⟨a, ha1, le_trans (heap_len_le_resetVal e.2 h) ha2, ha3⟩


theorem hWrite_hRead_same (h : Heap) (a : Nat) (ys : List Int) (ha : a < h.length) :
    hRead (hWrite h a ys) a = ys := by
  simp [hRead, hWrite, List.getD_eq_getElem?_getD, List.getElem?_set_self',
    List.getElem?_eq_getElem ha]

theorem hWrite_hRead_ne (h : Heap) (a b : Nat) (ys : List Int) (hne : a ≠ b) :
    hRead (hWrite h a ys) b = hRead h b := by
  simp [hRead, hWrite, List.getD_eq_getElem?_getD, List.getElem?_set_ne hne]

theorem schemaWF_spec (s : HSchema) (h : Heap) (hwf : schemaWF s h = true) :
    ∀ e ∈ s, ∀ a xs, e.2 = HFieldSpec.defArr a xs → a < h.length ∧ hRead h a = xs := by
  intro e he a xs hspec
  have hwf' := List.all_eq_true.mp
    (show s.all (fun e => specWFb h e.2) = true from hwf)
  have h1 : specWFb h e.2 = true := hwf' e he
  rw [hspec] at h1
  simp only [specWFb, Bool.and_eq_true, decide_eq_true_eq, beq_iff_eq] at h1
  exact h1

theorem refsOf_getElem (fs : List (List Char × HVal)) (a : Nat) (ha : a ∈ refsOf fs) :
    ∃ i : Nat, ∃ k, fs[i]? = some (k, HVal.ref a) := by
  obtain ⟨e, he, hfe⟩ := List.mem_filterMap.mp ha
  obtain ⟨k, v⟩ := e
  obtain ⟨i, hi⟩ := List.mem_iff_getElem?.mp he
  refine ⟨i, k, ?_⟩
  cases v with
  | int n => simp at hfe
  | ref b =>
      simp only [Option.some.injEq] at hfe
      subst hfe
      exact hi

theorem refsOf_mk_lt (s : HSchema) (h : Heap)
    (hwf : ∀ e ∈ s, ∀ a xs, e.2 = HFieldSpec.defArr a xs → a < h.length) :
    ∀ a ∈ refsOf (mkFields s h).1, a < (mkFields s h).2.length := by
  intro a ha
  obtain ⟨i, k, hi⟩ := refsOf_getElem _ a ha
  have hlt : i < (mkFields s h).1.length := (List.getElem?_eq_some.mp hi).1
  rw [mkFields_len] at hlt
  obtain ⟨es, hes⟩ : ∃ es, s[i]? = some es := ⟨s[i], List.getElem?_eq_getElem hlt⟩
  obtain ⟨k', spec⟩ := es
  obtain ⟨v, hv, m1, m2, m3⟩ := mkFields_get s h i k' spec hes
  rw [hi] at hv
  simp only [Option.some.injEq, Prod.mk.injEq] at hv
  obtain ⟨hk, hval⟩ := hv
  cases spec with
  | defInt n =>
      have hcontra := m1 n rfl
      rw [hcontra] at hval
      exact absurd hval (by simp)
  | defArr a0 xs =>
      have hval2 := m2 a0 xs rfl
      rw [← hval] at hval2
      simp only [HVal.ref.injEq] at hval2
      have hb := hwf (k', HFieldSpec.defArr a0 xs) (List.getElem?_mem hes) a0 xs rfl
      have h2 := heap_len_le_mkFields s h
      omega
  | factoryArr mk =>
      obtain ⟨b, hb1, hb2, hb3, hb4⟩ := m3 mk rfl
      rw [← hval] at hb1
      simp only [HVal.ref.injEq] at hb1
      subst hb1
      exact hb3

theorem refsOf_reset_ge (s : HSchema) (h : Heap) :
    ∀ a ∈ refsOf (resetFields s h).1, h.length ≤ a := by
  intro a ha
  obtain ⟨i, k, hi⟩ := refsOf_getElem _ a ha
  have hlt : i < (resetFields s h).1.length := (List.getElem?_eq_some.mp hi).1
  rw [resetFields_len] at hlt
  obtain ⟨es, hes⟩ : ∃ es, s[i]? = some es := ⟨s[i], List.getElem?_eq_getElem hlt⟩
  obtain ⟨k', spec⟩ := es
  obtain ⟨v, hv, r1, r2, r3⟩ := resetFields_get s h i k' spec hes
  rw [hi] at hv
  simp only [Option.some.injEq, Prod.mk.injEq] at hv
  obtain ⟨hk, hval⟩ := hv
  cases spec with
  | defInt n =>
      have hcontra := r1 n rfl
      rw [hcontra] at hval
      exact absurd hval (by simp)
  | defArr a0 xs =>
      obtain ⟨b, hb1, hb2, hb3⟩ := r2 a0 xs rfl
      rw [← hval] at hb1
      simp only [HVal.ref.injEq] at hb1
      subst hb1
      exact hb2
  | factoryArr mk =>
      obtain ⟨b, hb1, hb2, hb3⟩ := r3 mk rfl
      rw [← hval] at hb1
      simp only [HVal.ref.injEq] at hb1
      subst hb1
      exact hb2


/-- C5: for a record constructed with defaults and never otherwise mutated,
`reset()` followed by a recursive export yields exactly the export of a
brand-new instance, and reset re-invokes the default producers so that no
post-reset field value aliases any pre-reset field value. -/
theorem reset_restores_defaults (s : HSchema) (h0 : Heap)
    (hwf : schemaWF s h0 = true) :
    exportH (resetFields s (mkFields s h0).2).1 (resetFields s (mkFields s h0).2).2
      = exportH (mkFields s h0).1 (mkFields s h0).2 ∧
    ∀ a ∈ refsOf (resetFields s (mkFields s h0).2).1, a ∉ refsOf (mkFields s h0).1 := by
  constructor
  · apply List.ext_getElem?
    intro i
    rw [exportH, exportH, List.getElem?_map, List.getElem?_map]
    by_cases hi : i < s.length
    · obtain ⟨es, hes⟩ : ∃ es, s[i]? = some es := ⟨s[i], List.getElem?_eq_getElem hi⟩
      obtain ⟨k, spec⟩ := es
      obtain ⟨v1, hv1, m1, m2, m3⟩ := mkFields_get s h0 i k spec hes
      obtain ⟨v2, hv2, r1, r2, r3⟩ := resetFields_get s (mkFields s h0).2 i k spec hes
      rw [hv1, hv2]
      cases spec with
      | defInt n => rw [m1 n rfl, r1 n rfl]; rfl
      | defArr a xs =>
          obtain ⟨hlt, hread⟩ := schemaWF_spec s h0 hwf (k, HFieldSpec.defArr a xs)
            (List.getElem?_mem hes) a xs rfl
          rw [m2 a xs rfl]
          obtain ⟨a', hva', ha', hra'⟩ := r2 a xs rfl
          rw [hva']
          obtain ⟨t, ht⟩ := mkFields_heap_ext s h0
          have hmk : hRead (mkFields s h0).2 a = xs := by
            rw [ht, hRead_append _ _ _ hlt, hread]
          simp [hra', hmk]
      | factoryArr mk =>
          obtain ⟨a1, hva1, hb1, hb2, hr1⟩ := m3 mk rfl
          obtain ⟨a2, hva2, hb3, hr2⟩ := r3 mk rfl
          rw [hva1, hva2]
          simp [hr1, hr2]
    · have hn1 : (resetFields s (mkFields s h0).2).1[i]? = none :=
        List.getElem?_eq_none (by rw [resetFields_len]; omega)
      have hn2 : (mkFields s h0).1[i]? = none :=
        List.getElem?_eq_none (by rw [mkFields_len]; omega)
      rw [hn1, hn2]
      rfl
  · intro a har hamk
    have h1 := refsOf_reset_ge s (mkFields s h0).2 a har
    have h2 := refsOf_mk_lt s h0
      (fun e he a' xs' hsp => (schemaWF_spec s h0 hwf e he a' xs' hsp).1) a hamk
    omega

/-- C7: a field declared with a default factory holds, in two freshly
constructed instances, two distinct non-aliased cells (a write through one is
invisible through the other), whereas a field declared with a plain mutable
default holds the identical shared cell in both instances, so a write through
one instance is read back through the other. -/
theorem factory_fresh_plain_shared (s : HSchema) (h0 : Heap) (i : Nat) (k : List Char) :
    (∀ mk, s[i]? = some (k, HFieldSpec.factoryArr mk) →
      ∃ a1 a2,
        (mkFields s h0).1[i]? = some (k, HVal.ref a1) ∧
        (mkFields s (mkFields s h0).2).1[i]? = some (k, HVal.ref a2) ∧
        a1 ≠ a2 ∧
        ∀ ys, hRead (hWrite (mkFields s (mkFields s h0).2).2 a1 ys) a2
            = hRead (mkFields s (mkFields s h0).2).2 a2) ∧
    (∀ a xs, s[i]? = some (k, HFieldSpec.defArr a xs) →
      (mkFields s h0).1[i]? = some (k, HVal.ref a) ∧
      (mkFields s (mkFields s h0).2).1[i]? = some (k, HVal.ref a) ∧
      (a < h0.length →
        ∀ ys, hRead (hWrite (mkFields s (mkFields s h0).2).2 a ys) a = ys)) := by
  constructor
  · intro mk hs
    obtain ⟨v1, hv1, m1, m2, m3⟩ := mkFields_get s h0 i k (HFieldSpec.factoryArr mk) hs
    obtain ⟨v2, hv2, n1, n2, n3⟩ :=
      mkFields_get s (mkFields s h0).2 i k (HFieldSpec.factoryArr mk) hs
    obtain ⟨a1, hva1, hb1, hb2, hr1⟩ := m3 mk rfl
    obtain ⟨a2, hva2, hc1, hc2, hr2⟩ := n3 mk rfl
    subst hva1
    subst hva2
    refine ⟨a1, a2, hv1, hv2, by omega, ?_⟩
    intro ys
    exact hWrite_hRead_ne _ a1 a2 ys (by omega)
  · intro a xs hs
    obtain ⟨v1, hv1, m1, m2, m3⟩ := mkFields_get s h0 i k (HFieldSpec.defArr a xs) hs
    obtain ⟨v2, hv2, n1, n2, n3⟩ :=
      mkFields_get s (mkFields s h0).2 i k (HFieldSpec.defArr a xs) hs
    have hva1 := m2 a xs rfl
    have hva2 := n2 a xs rfl
    subst hva1
    subst hva2
    refine ⟨hv1, hv2, ?_⟩
    intro ha ys
    apply hWrite_hRead_same
    have h1 := heap_len_le_mkFields s h0
    have h2 := heap_len_le_mkFields s (mkFields s h0).2
    omega

/-- Witness for C5 on the concrete schema `wSchema`. -/
theorem reset_restores_defaults_w :
    schemaWF wSchema wHeap = true ∧
    (exportH (resetFields wSchema (mkFields wSchema wHeap).2).1
        (resetFields wSchema (mkFields wSchema wHeap).2).2
      = exportH (mkFields wSchema wHeap).1 (mkFields wSchema wHeap).2 ∧
    ∀ a ∈ refsOf (resetFields wSchema (mkFields wSchema wHeap).2).1,
      a ∉ refsOf (mkFields wSchema wHeap).1) :=
  ⟨rfl, reset_restores_defaults wSchema wHeap rfl⟩

/-- Witness for C7 on the concrete schema `wSchema`: the factory field at
position 0 and the plain-default field at position 2. -/
theorem factory_fresh_plain_shared_w :
    (∃ a1 a2,
        (mkFields wSchema wHeap).1[0]? = some ("image".data, HVal.ref a1) ∧
        (mkFields wSchema (mkFields wSchema wHeap).2).1[0]? = some ("image".data, HVal.ref a2) ∧
        a1 ≠ a2 ∧
        ∀ ys, hRead (hWrite (mkFields wSchema (mkFields wSchema wHeap).2).2 a1 ys) a2
            = hRead (mkFields wSchema (mkFields wSchema wHeap).2).2 a2) ∧
    ((mkFields wSchema wHeap).1[2]? = some ("danger".data, HVal.ref 0) ∧
     (mkFields wSchema (mkFields wSchema wHeap).2).1[2]? = some ("danger".data, HVal.ref 0) ∧
     (0 < wHeap.length →
       ∀ ys, hRead (hWrite (mkFields wSchema (mkFields wSchema wHeap).2).2 0 ys) 0 = ys)) :=
  ⟨(factory_fresh_plain_shared wSchema wHeap 0 "image".data).1 [0, 0] rfl,
   (factory_fresh_plain_shared wSchema wHeap 2 "danger".data).2 0 [7] rfl⟩

/-! ## Theorems: flat export key disjointness (C6) and export modes (C8) -/


theorem sep_head_eq (p1 p2 r1 r2 : List Char)
    (h1 : '_' ∉ p1) (h2 : '_' ∉ p2)
    (heq : p1 ++ '_' :: r1 = p2 ++ '_' :: r2) : p1 = p2 := by
  induction p1 generalizing p2 with
  | nil =>
      cases p2 with
      | nil => rfl
      | cons d p2' =>
          simp only [List.nil_append, List.cons_append, List.cons.injEq] at heq
          have h2' : '_' ≠ d ∧ '_' ∉ p2' := by simpa using h2
          exact absurd heq.1 h2'.1
  | cons c p1' ih =>
      cases p2 with
      | nil =>
          simp only [List.nil_append, List.cons_append, List.cons.injEq] at heq
          have h1' : '_' ≠ c ∧ '_' ∉ p1' := by simpa using h1
          exact absurd heq.1.symm h1'.1
      | cons d p2' =>
          simp only [List.cons_append, List.cons.injEq] at heq
          have h1' : '_' ≠ c ∧ '_' ∉ p1' := by simpa using h1
          have h2' : '_' ≠ d ∧ '_' ∉ p2' := by simpa using h2
          have := ih p2' h1'.2 h2'.2 heq.2
          rw [heq.1, this]

theorem keys_asDict_flat (c : Container) :
    exportKeys (asDict c true true true)
      = (flatEntries c.fields).map (fun e => c.pfx ++ '_' :: e.1) := by
  simp [asDict, addPfx, exportKeys]

/-- C6 (amended): two instances exported with
`recursive=True, flatten=True, add_prefix=True` have disjoint key sets
whenever their prefixes are distinct and neither prefix contains the
separator character `'_'`.  (The unamended claim fails: see
`distinct_pfx_collision`.) -/
theorem distinct_pfx_disjoint_keys (c1 c2 : Container)
    (hne : c1.pfx ≠ c2.pfx) (h1 : '_' ∉ c1.pfx) (h2 : '_' ∉ c2.pfx) :
    ∀ k, k ∈ exportKeys (asDict c1 true true true) →
      k ∉ exportKeys (asDict c2 true true true) := by
  intro k hk1 hk2
  rw [keys_asDict_flat] at hk1 hk2
  obtain ⟨e1, he1, hke1⟩ := List.mem_map.mp hk1
  obtain ⟨e2, he2, hke2⟩ := List.mem_map.mp hk2
  exact hne (sep_head_eq c1.pfx c2.pfx e1.1 e2.1 h1 h2 (hke1.trans hke2.symm))


/-- Counterexample to C6 as stated: two instances of the same record type
(field names "x" and "y_x") with the distinct prefixes "a_y" and "a" both
export the key "a_y_x", so their key sets intersect. -/
theorem distinct_pfx_collision :
    cexA.pfx ≠ cexB.pfx ∧
    "a_y_x".data ∈ exportKeys (asDict cexA true true true) ∧
    "a_y_x".data ∈ exportKeys (asDict cexB true true true) := by
  refine ⟨by decide, by decide, by decide⟩

/-- Witness for C6 (amended) at the notebook's prefixes "foo" and "bar". -/
theorem distinct_pfx_disjoint_keys_w :
    ("foo".data : List Char) ≠ "bar".data ∧
    '_' ∉ ("foo".data : List Char) ∧ '_' ∉ ("bar".data : List Char) ∧
    "foo_x".data ∉
      exportKeys (asDict { pfx := "bar".data, fields := cexFields } true true true) :=
  ⟨by decide, by decide, by decide,
   distinct_pfx_disjoint_keys { pfx := "foo".data, fields := cexFields }
     { pfx := "bar".data, fields := cexFields } (by decide) (by decide) (by decide)
     "foo_x".data (by decide)⟩

theorem nonRec_keys (fs : List (List Char × CVal)) :
    (nonRecEntries fs).map Prod.fst
      = (fs.filter fun e => ! e.2.isMap).map Prod.fst := by
  induction fs with
  | nil => simp [nonRecEntries]
  | cons e rest ih =>
      obtain ⟨k, v⟩ := e
      cases v <;> simp [nonRecEntries, List.filter_cons, CVal.isMap, ih]

theorem nonRec_sub_opaque (fs : List (List Char × CVal)) (k : List Char)
    (sfs : List (List Char × CVal)) (h : (k, CVal.sub sfs) ∈ fs) :
    (k, PyVal.cont sfs) ∈ nonRecEntries fs := by
  induction fs with
  | nil => simp at h
  | cons e rest ih =>
      rcases List.mem_cons.mp h with heq | hmem
      · rw [← heq]
        simp [nonRecEntries]
      · obtain ⟨k', v⟩ := e
        cases v <;> simp only [nonRecEntries, List.mem_cons] <;>
          first
            | exact ih hmem
            | exact Or.inr (ih hmem)

theorem nonRec_values_leaves (fs : List (List Char × CVal)) :
    ∀ kv ∈ nonRecEntries fs, kv.2.isLeaf = true := by
  induction fs with
  | nil => simp [nonRecEntries]
  | cons e rest ih =>
      intro kv hkv
      obtain ⟨k, v⟩ := e
      cases v <;> simp only [nonRecEntries, List.mem_cons] at hkv <;>
        first
          | (rcases hkv with rfl | hkv
             · rfl
             · exact ih kv hkv)
          | exact ih kv hkv

theorem mapEntries_keys (es : List (Nat × List (List Char × CVal))) :
    (mapEntries es).map Prod.fst = es.map (fun e => (Nat.repr e.1).data) := by
  induction es with
  | nil => simp [mapEntries]
  | cons e rest ih => simp [mapEntries, ih]

theorem recEntries_map_field (fs : List (List Char × CVal)) (k : List Char)
    (es : List (Nat × List (List Char × CVal))) (h : (k, CVal.map es) ∈ fs) :
    (k, PyVal.dict (mapEntries es)) ∈ recEntries fs := by
  induction fs with
  | nil => simp at h
  | cons e rest ih =>
      rcases List.mem_cons.mp h with heq | hmem
      · rw [← heq]
        simp [recEntries, recVal]
      · simp only [recEntries, List.mem_cons]
        exact Or.inr (ih hmem)

/-- C8: the non-recursive export is exactly the scalar/array fields plus
sub-containers passed through as opaque (undescended) values, with map fields
skipped entirely (key-for-key with the non-map fields); the recursive export
expands a map field into one entry per map key. -/
theorem export_recursion_modes (c : Container) :
    (asDict c false false false = PyVal.dict (nonRecEntries c.fields)) ∧
    ((nonRecEntries c.fields).map Prod.fst
      = (c.fields.filter fun e => ! e.2.isMap).map Prod.fst) ∧
    (∀ kv ∈ nonRecEntries c.fields, kv.2.isLeaf = true) ∧
    (∀ k sfs, (k, CVal.sub sfs) ∈ c.fields → (k, PyVal.cont sfs) ∈ nonRecEntries c.fields) ∧
    (∀ k es, (k, CVal.map es) ∈ c.fields →
      (k, PyVal.dict (mapEntries es)) ∈ recEntries c.fields ∧
      (mapEntries es).map Prod.fst = es.map (fun e => (Nat.repr e.1).data)) := by
  refine ⟨rfl, nonRec_keys c.fields, nonRec_values_leaves c.fields, ?_, ?_⟩
  · intro k sfs h
    exact nonRec_sub_opaque c.fields k sfs h
  · intro k es h
    exact ⟨recEntries_map_field c.fields k es h, mapEntries_keys es⟩


/-- Witness for C8: the opaque sub-container pass-through and the key-by-key
map expansion on a concrete event-like container. -/
theorem export_recursion_modes_w :
    (("sub".data, PyVal.cont [("junk".data, CVal.int (-1))]) ∈ nonRecEntries evW.fields) ∧
    (("tel".data, PyVal.dict (mapEntries [(1, [("tel_id".data, CVal.int (-1))])]))
        ∈ recEntries evW.fields ∧
      (mapEntries [(1, [("tel_id".data, CVal.int (-1))])]).map Prod.fst
        = [(1, [("tel_id".data, CVal.int (-1))])].map (fun e => (Nat.repr e.1).data)) :=
  ⟨(export_recursion_modes evW).2.2.2.1 "sub".data [("junk".data, CVal.int (-1))]
      (List.Mem.tail _ (List.Mem.head _)),
   (export_recursion_modes evW).2.2.2.2 "tel".data [(1, [("tel_id".data, CVal.int (-1))])]
      (List.Mem.tail _ (List.Mem.tail _ (List.Mem.head _)))⟩

/-! ## Theorems: flatten_dict (C9) -/


theorem pyAssignAll_append (out l1 l2 : List (List Char × PyVal)) :
    pyAssignAll out (l1 ++ l2) = pyAssignAll (pyAssignAll out l1) l2 := by
  simp [pyAssignAll, List.foldl_append]

mutual

theorem pyFlatten_eq (out : List (List Char × PyVal)) (x : PyVal) (name : List Char) :
    pyFlatten out x name = pyAssignAll out (pyLeaves x name) := by
  cases x with
  | dict es => exact pyFlattenDict_eq out es name
  | list xs => exact pyFlattenList_eq out xs name 0
  | int n => rfl
  | arr xs => rfl
  | str s => rfl
  | cont fs => rfl

theorem pyFlattenDict_eq (out : List (List Char × PyVal))
    (es : List (List Char × PyVal)) (name : List Char) :
    pyFlattenDict out es name = pyAssignAll out (pyLeavesDict es name) := by
  cases es with
  | nil => rfl
  | cons e rest =>
      rw [pyFlattenDict, pyLeavesDict, pyAssignAll_append,
        pyFlattenDict_eq (pyFlatten out e.2 (name ++ e.1 ++ ['.'])) rest name,
        pyFlatten_eq out e.2 (name ++ e.1 ++ ['.'])]

theorem pyFlattenList_eq (out : List (List Char × PyVal)) (xs : List PyVal)
    (name : List Char) (i : Nat) :
    pyFlattenList out xs name i = pyAssignAll out (pyLeavesList xs name i) := by
  cases xs with
  | nil => rfl
  | cons v rest =>
      rw [pyFlattenList, pyLeavesList, pyAssignAll_append,
        pyFlattenList_eq (pyFlatten out v (name ++ (Nat.repr i).data ++ ['.'])) rest name (i + 1),
        pyFlatten_eq out v (name ++ (Nat.repr i).data ++ ['.'])]

end


theorem pyAssign_fresh (out : List (List Char × PyVal)) (k : List Char) (v : PyVal)
    (h : ∀ e ∈ out, e.1 ≠ k) : pyAssign out k v = out ++ [(k, v)] := by
  have hc : ¬ (out.any (fun e => e.1 == k) = true) := by
    intro hany
    obtain ⟨e, he, hbe⟩ := List.any_eq_true.mp hany
    exact h e he (by simpa using hbe)
  rw [pyAssign, if_neg hc]

theorem pyAssignAll_fresh (out l : List (List Char × PyVal))
    (hnd : (l.map Prod.fst).Nodup)
    (hdisj : ∀ e ∈ l, ∀ e' ∈ out, e'.1 ≠ e.1) :
    pyAssignAll out l = out ++ l := by
  induction l generalizing out with
  | nil => simp [pyAssignAll]
  | cons e rest ih =>
      have hfresh : ∀ e' ∈ out, e'.1 ≠ e.1 :=
        fun e' he' => hdisj e (List.mem_cons_self e rest) e' he'
      have hstep : pyAssignAll out (e :: rest)
          = pyAssignAll (out ++ [(e.1, e.2)]) rest := by
        rw [pyAssignAll, List.foldl_cons, pyAssign_fresh out e.1 e.2 hfresh]
        rfl
      rw [hstep]
      have hnd' : (rest.map Prod.fst).Nodup := (List.nodup_cons.mp (by simpa using hnd)).2
      have hhead : e.1 ∉ rest.map Prod.fst := (List.nodup_cons.mp (by simpa using hnd)).1
      rw [ih (out ++ [(e.1, e.2)]) hnd' ?_]
      · simp
      · intro e2 he2 e' he'
        rcases List.mem_append.mp he' with h1 | h1
        · exact hdisj e2 (List.mem_cons_of_mem e he2) e' h1
        · have : e' = (e.1, e.2) := List.mem_singleton.mp h1
          rw [this]
          intro hcontra
          exact hhead (hcontra ▸ List.mem_map_of_mem Prod.fst he2)

theorem flatten_dict_eq_leaves (y : PyVal)
    (h : ((pyLeaves y []).map Prod.fst).Nodup) :
    flatten_dict y = pyLeaves y [] := by
  rw [flatten_dict, pyFlatten_eq, pyAssignAll_fresh [] _ h (by simp)]
  rfl

mutual

theorem pyLeaves_leaf (x : PyVal) (name : List Char) :
    ∀ kv ∈ pyLeaves x name, kv.2.isLeaf = true := by
  cases x with
  | dict es => exact fun kv hkv => pyLeavesDict_leaf es name kv hkv
  | list xs => exact fun kv hkv => pyLeavesList_leaf xs name 0 kv hkv
  | int n => intro kv hkv; rw [List.mem_singleton.mp hkv]; rfl
  | arr xs => intro kv hkv; rw [List.mem_singleton.mp hkv]; rfl
  | str s => intro kv hkv; rw [List.mem_singleton.mp hkv]; rfl
  | cont fs => intro kv hkv; rw [List.mem_singleton.mp hkv]; rfl

theorem pyLeavesDict_leaf (es : List (List Char × PyVal)) (name : List Char) :
    ∀ kv ∈ pyLeavesDict es name, kv.2.isLeaf = true := by
  cases es with
  | nil => simp [pyLeavesDict]
  | cons e rest =>
      intro kv hkv
      rw [pyLeavesDict] at hkv
      rcases List.mem_append.mp hkv with h1 | h1
      · exact pyLeaves_leaf e.2 (name ++ e.1 ++ ['.']) kv h1
      · exact pyLeavesDict_leaf rest name kv h1

theorem pyLeavesList_leaf (xs : List PyVal) (name : List Char) (i : Nat) :
    ∀ kv ∈ pyLeavesList xs name i, kv.2.isLeaf = true := by
  cases xs with
  | nil => simp [pyLeavesList]
  | cons v rest =>
      intro kv hkv
      rw [pyLeavesList] at hkv
      rcases List.mem_append.mp hkv with h1 | h1
      · exact pyLeaves_leaf v (name ++ (Nat.repr i).data ++ ['.']) kv h1
      · exact pyLeavesList_leaf rest name (i + 1) kv h1

end

theorem mem_pyLeavesDict (es : List (List Char × PyVal)) (name k : List Char)
    (x : PyVal) (h : (k, x) ∈ es) :
    ∀ kv ∈ pyLeaves x (name ++ k ++ ['.']), kv ∈ pyLeavesDict es name := by
  induction es with
  | nil => simp at h
  | cons e rest ih =>
      intro kv hkv
      rw [pyLeavesDict]
      rcases List.mem_cons.mp h with heq | hmem
      · exact List.mem_append_left _ (by rw [← heq]; exact hkv)
      · exact List.mem_append_right _ (ih hmem kv hkv)

theorem mem_pyLeavesList (xs : List PyVal) (name : List Char) (x : PyVal) :
    ∀ i j n, n = j + i → xs[i]? = some x →
      ∀ kv ∈ pyLeaves x (name ++ (Nat.repr n).data ++ ['.']),
        kv ∈ pyLeavesList xs name j := by
  induction xs with
  | nil => intro i j n hn h; simp at h
  | cons v rest ih =>
      intro i j n hn h kv hkv
      rw [pyLeavesList]
      cases i with
      | zero =>
          have hv : v = x := by simpa using h
          have hnj : n = j := by omega
          apply List.mem_append_left
          rw [hv]
          rw [hnj] at hkv
          exact hkv
      | succ i' =>
          apply List.mem_append_right
          have h' : rest[i']? = some x := by simpa using h
          exact ih i' (j + 1) n (by omega) h' kv hkv

theorem leafat_mem_leaves {y : PyVal} {p : List PathElem} {v : PyVal}
    (h : LeafAt y p v) :
    ∀ name, ((name ++ pathStr p).dropLast, v) ∈ pyLeaves y name := by
  induction h with
  | here hl =>
      rename_i vv
      intro name
      cases vv <;> simp_all [PyVal.isLeaf, pyLeaves, pathStr]
  | inDict hmem hl ih =>
      intro name
      have hsub := mem_pyLeavesDict _ name _ _ hmem _ (ih _)
      simpa [pathStr, List.append_assoc] using hsub
  | inList hget hl ih =>
      rename_i xs0 p0 i0 x0 v0
      intro name
      have hsub := mem_pyLeavesList xs0 name x0 i0 0 i0 (by omega) hget _
        (ih (name ++ (Nat.repr i0).data ++ ['.']))
      simpa [pathStr, List.append_assoc] using hsub

theorem joinDot_eq (L : List (List Char)) :
    ((L.map (fun s => s ++ ['.'])).flatten).dropLast = joinDot L := by
  induction L with
  | nil => rfl
  | cons s rest ih =>
      cases rest with
      | nil => simp [joinDot, List.dropLast_concat]
      | cons t rest' =>
          rw [List.map_cons, List.flatten_cons,
            List.dropLast_append_of_ne_nil _ (by simp [List.flatten_cons]), ih,
            List.append_assoc, List.singleton_append]
          rfl

theorem pathStr_dropLast (p : List PathElem) :
    (pathStr p).dropLast = joinDot (p.map elemStr) := by
  have h := joinDot_eq (p.map elemStr)
  rw [List.map_map] at h
  simpa [pathStr, Function.comp] using h

/-- C9 (amended): provided the joined keys of the input's leaves are pairwise
distinct, `flatten_dict` maps every leaf of the input to an entry under the
key formed by joining its path of dict keys and list indices with ".", and no
dict or list appears among the values of the result.  (Without the
distinctness proviso the claim fails: see `flatten_dict_key_clash`.) -/
theorem flatten_dict_spec (y : PyVal)
    (h : ((pyLeaves y []).map Prod.fst).Nodup) :
    (∀ p v, LeafAt y p v → (joinDot (p.map elemStr), v) ∈ flatten_dict y) ∧
    (∀ kv ∈ flatten_dict y, kv.2.isLeaf = true) := by
  constructor
  · intro p v hl
    rw [flatten_dict_eq_leaves y h]
    have hm := leafat_mem_leaves hl []
    rwa [List.nil_append, pathStr_dropLast] at hm
  · intro kv hkv
    rw [flatten_dict_eq_leaves y h] at hkv
    exact pyLeaves_leaf y [] kv hkv

/-- Witness for C9 (amended) on the concrete collision-free input `yW`. -/
theorem flatten_dict_spec_w :
    ((pyLeaves yW []).map Prod.fst).Nodup ∧
    (("a".data, PyVal.int 1) ∈ flatten_dict yW ∧
      ∀ kv ∈ flatten_dict yW, kv.2.isLeaf = true) :=
  ⟨by decide,
   (flatten_dict_spec yW (by decide)).1 [PathElem.key "a".data] (PyVal.int 1)
      (LeafAt.inDict (List.Mem.head _) (LeafAt.here rfl)),
   (flatten_dict_spec yW (by decide)).2⟩

/-- Counterexample to C9 as stated: in `cexY` the leaf `1` sits at path
a.b (joined key "a.b"), but the later top-level key "a.b" overwrites it, so
that leaf does not appear in `flatten_dict cexY`. -/
theorem flatten_dict_key_clash :
    LeafAt cexY [PathElem.key "a".data, PathElem.key "b".data] (PyVal.int 1) ∧
    joinDot ([PathElem.key "a".data, PathElem.key "b".data].map elemStr) = "a.b".data ∧
    ("a.b".data, PyVal.int 1) ∉ flatten_dict cexY := by
  refine ⟨LeafAt.inDict (List.Mem.head _) (LeafAt.inDict (List.Mem.head _) (LeafAt.here rfl)),
    rfl, ?_⟩
  intro hmem
  have he : flatten_dict cexY = [("a.b".data, PyVal.int 2)] := rfl
  rw [he] at hmem
  simp at hmem

end CtapipeSpec
